import Mathlib

/-!
Verification development for `school_nicknames` (`src/main_module.py`).

The program is a linear ETL pipeline: fetch Wikipedia tables of collegiate
athletic programs, normalize their schemas, clean cell text, split compound
nickname fields, and emit a word concordance plus a spreadsheet export.

Strings are modelled as `List Char`.  Pandas dataframes are modelled as a
column-name list plus a row list (each row a list of cell values aligned with
the columns).  Fallible Python operations (KeyError, IndexError) are modelled
with `Except (List Char)`.
-/

namespace Nicknames

/-- Convert a string literal to the `List Char` representation used throughout. -/
def strList (s : String) : List Char := s.toList

/-- Prepend a character to the first chunk of a chunk list (used while scanning
left-to-right in the embedding of Python `str.split`). -/
def consHead (c : Char) : List (List Char) → List (List Char)
  | [] => [[c]]
  | x :: xs => (c :: x) :: xs

/-- Embedding of Python `s.split(sep)` for a separator `sep`: scan left to
right; each (non-overlapping) occurrence of `sep` ends the current chunk. -/
def splitOnSub (sep : List Char) (s : List Char) : List (List Char) :=
  if h : sep ≠ [] ∧ sep.isPrefixOf s then
    [] :: splitOnSub sep (s.drop sep.length)
  else
    match s with
    | [] => [[]]
    | c :: rest => consHead c (splitOnSub sep rest)
termination_by s.length
decreasing_by
  · have h1 : sep <+: s := List.isPrefixOf_iff_prefix.mp h.2
    have h2 : sep.length ≤ s.length := h1.length_le
    have h3 : 0 < sep.length := List.length_pos.mpr h.1
    simp only [List.length_drop]
    omega
  · simp

theorem consHead_ne_nil (c : Char) (l : List (List Char)) : consHead c l ≠ [] := by
  cases l <;> simp [consHead]

theorem splitOnSub_nil (sep : List Char) : splitOnSub sep [] = [[]] := by
  rw [splitOnSub]
  have hneg : ¬(sep ≠ [] ∧ sep.isPrefixOf ([] : List Char)) := by
    rintro ⟨h1, h2⟩
    have := List.isPrefixOf_iff_prefix.mp h2
    simp at this
    exact h1 this
  rw [dif_neg hneg]

theorem splitOnSub_pos (sep s : List Char) (h1 : sep ≠ []) (h2 : sep.isPrefixOf s) :
    splitOnSub sep s = [] :: splitOnSub sep (s.drop sep.length) := by
  rw [splitOnSub, dif_pos ⟨h1, h2⟩]

theorem splitOnSub_cons_neg (sep : List Char) (c : Char) (rest : List Char)
    (h : ¬ sep.isPrefixOf (c :: rest)) :
    splitOnSub sep (c :: rest) = consHead c (splitOnSub sep rest) := by
  rw [splitOnSub, dif_neg (by tauto)]

theorem splitOnSub_ne_nil (sep s : List Char) : splitOnSub sep s ≠ [] := by
  rw [splitOnSub]
  split
  · simp
  · match s with
    | [] => simp
    | c :: rest => exact consHead_ne_nil c _

/-- Rejoin chunks with the separator (inverse direction of `splitOnSub`). -/
def joinSep (sep : List Char) : List (List Char) → List Char
  | [] => []
  | [x] => x
  | x :: y :: ys => x ++ sep ++ joinSep sep (y :: ys)

theorem joinSep_cons_of_ne_nil (sep : List Char) (x : List Char)
    (l : List (List Char)) (h : l ≠ []) :
    joinSep sep (x :: l) = x ++ sep ++ joinSep sep l := by
  cases l with
  | nil => exact absurd rfl h
  | cons y ys => rfl

theorem joinSep_consHead (sep : List Char) (c : Char) (l : List (List Char))
    (h : l ≠ []) : joinSep sep (consHead c l) = c :: joinSep sep l := by
  match l with
  | [x] => rfl
  | x :: y :: ys => rfl

/-- Python `str.split` loses no text: interleaving the chunks with the
separator reconstructs the original string. -/
theorem joinSep_splitOnSub (sep : List Char) (hsep : sep ≠ []) (s : List Char) :
    joinSep sep (splitOnSub sep s) = s := by
  have main : ∀ n (s : List Char), s.length ≤ n →
      joinSep sep (splitOnSub sep s) = s := by
    intro n
    induction n with
    | zero =>
      intro s hs
      have hnil : s = [] := by
        cases s with
        | nil => rfl
        | cons c rest => simp at hs
      subst hnil
      rw [splitOnSub_nil]
      rfl
    | succ n ih =>
      intro s hs
      by_cases hp : sep.isPrefixOf s
      · rw [splitOnSub_pos sep s hsep hp]
        obtain ⟨t, ht⟩ := List.isPrefixOf_iff_prefix.mp hp
        rw [joinSep_cons_of_ne_nil _ _ _ (splitOnSub_ne_nil _ _)]
        have hd : s.drop sep.length = t := by
          rw [← ht]
          exact List.drop_left sep t
        have hlsep : 0 < sep.length := List.length_pos.mpr hsep
        have hlt : t.length ≤ n := by
          have := congrArg List.length ht
          simp only [List.length_append] at this
          omega
        rw [hd, ih t hlt]
        simpa using ht
      · cases s with
        | nil => rw [splitOnSub_nil]; rfl
        | cons c rest =>
          rw [splitOnSub_cons_neg sep c rest hp,
              joinSep_consHead _ _ _ (splitOnSub_ne_nil _ _),
              ih rest (by simp at hs; omega)]
  exact main s.length s (le_refl _)

/-- The prefix of `s` strictly before the first occurrence of `pat`
(all of `s` when `pat` does not occur). -/
def takeBeforeFirst (pat : List Char) : List Char → List Char
  | [] => []
  | c :: rest => if pat.isPrefixOf (c :: rest) then [] else c :: takeBeforeFirst pat rest

theorem headD_splitOnSub (sep : List Char) (hsep : sep ≠ []) (s : List Char) :
    (splitOnSub sep s).headD [] = takeBeforeFirst sep s := by
  induction s with
  | nil => rw [splitOnSub_nil]; rfl
  | cons c rest ih =>
    by_cases hp : sep.isPrefixOf (c :: rest)
    · rw [splitOnSub_pos _ _ hsep hp]
      simp [takeBeforeFirst, hp]
    · rw [splitOnSub_cons_neg _ _ _ hp]
      have hne := splitOnSub_ne_nil sep rest
      cases hl : splitOnSub sep rest with
      | nil => exact absurd hl hne
      | cons x xs =>
        rw [hl] at ih
        simp [consHead, takeBeforeFirst, hp]
        simpa using ih

/-- Embedding of the Python substring test `pat in s`. -/
def containsSub (pat : List Char) : List Char → Bool
  | [] => pat.isPrefixOf []
  | c :: rest => pat.isPrefixOf (c :: rest) || containsSub pat rest

theorem containsSub_iff (pat s : List Char) : containsSub pat s = true ↔ pat <:+: s := by
  induction s with
  | nil =>
    simp [containsSub, List.isPrefixOf_iff_prefix]
  | cons c rest ih =>
    simp only [containsSub, Bool.or_eq_true, List.isPrefixOf_iff_prefix, ih,
      List.infix_cons_iff]

theorem takeBeforeFirst_isPre (pat s : List Char) : takeBeforeFirst pat s <+: s := by
  induction s with
  | nil => exact List.prefix_rfl
  | cons c rest ih =>
    by_cases hp : pat.isPrefixOf (c :: rest)
    · simp [takeBeforeFirst, hp]
    · simp only [takeBeforeFirst, hp, if_false]
      exact (List.prefix_cons_inj c).mpr ih

theorem not_in_takeBeforeFirst (pat s : List Char) (hpat : pat ≠ []) :
    ¬ pat <:+: takeBeforeFirst pat s := by
  induction s with
  | nil =>
    simp [takeBeforeFirst, List.infix_nil, hpat]
  | cons c rest ih =>
    by_cases hp : pat.isPrefixOf (c :: rest)
    · simp [takeBeforeFirst, hp, List.infix_nil, hpat]
    · simp only [takeBeforeFirst, hp, if_false]
      intro hinf
      rcases List.infix_cons_iff.mp hinf with hpre | hinf2
      · rcases pat with _ | ⟨p, ps⟩
        · exact hpat rfl
        · rcases List.cons_prefix_cons.mp hpre with ⟨hpc, hps⟩
          have : ps <+: rest := hps.trans (takeBeforeFirst_isPre _ rest)
          exact hp (List.isPrefixOf_iff_prefix.mpr
            (List.cons_prefix_cons.mpr ⟨hpc, this⟩))
      · exact ih hinf2

theorem takeBeforeFirst_append_pat (pat s : List Char) (h : pat <:+: s) :
    takeBeforeFirst pat s ++ pat <+: s := by
  induction s with
  | nil =>
    have : pat = [] := List.infix_nil.mp h
    simp [takeBeforeFirst, this]
  | cons c rest ih =>
    by_cases hp : pat.isPrefixOf (c :: rest)
    · simpa [takeBeforeFirst, hp] using List.isPrefixOf_iff_prefix.mp hp
    · simp only [takeBeforeFirst, hp, Bool.false_eq_true, if_false]
      rcases List.infix_cons_iff.mp h with hpre | hinf2
      · exact absurd (List.isPrefixOf_iff_prefix.mpr hpre) hp
      · rw [List.cons_append]
        exact (List.prefix_cons_inj c).mpr (ih hinf2)

theorem takeBeforeFirst_min (pat s q : List Char) (h : q ++ pat <+: s) :
    (takeBeforeFirst pat s).length ≤ q.length := by
  induction s generalizing q with
  | nil =>
    have : q ++ pat = [] := List.prefix_nil.mp h
    have hq : q = [] := by
      rcases List.append_eq_nil.mp this with ⟨h1, _⟩
      exact h1
    simp [takeBeforeFirst, hq]
  | cons c rest ih =>
    by_cases hp : pat.isPrefixOf (c :: rest)
    · simp [takeBeforeFirst, hp]
    · simp only [takeBeforeFirst, hp, if_false]
      rcases q with _ | ⟨a, q'⟩
      · simp only [List.nil_append] at h
        exact absurd (List.isPrefixOf_iff_prefix.mpr h) hp
      · rw [List.cons_append] at h
        rcases List.cons_prefix_cons.mp h with ⟨_, h2⟩
        simpa using Nat.succ_le_succ (ih q' h2)

theorem takeBeforeFirst_of_no_occurrence (pat s : List Char) (h : ¬ pat <:+: s) :
    takeBeforeFirst pat s = s := by
  induction s with
  | nil => rfl
  | cons c rest ih =>
    have hp : ¬ pat.isPrefixOf (c :: rest) := by
      intro hpre
      exact h (List.IsPrefix.isInfix (List.isPrefixOf_iff_prefix.mp hpre))
    have hinf : ¬ pat <:+: rest := by
      intro hinf
      exact h (List.infix_cons_iff.mpr (Or.inr hinf))
    simp [takeBeforeFirst, hp, ih hinf]

theorem splitOnSub_no_occurrence (sep s : List Char)
    (h : ¬ sep <:+: s) : splitOnSub sep s = [s] := by
  induction s with
  | nil => exact splitOnSub_nil sep
  | cons c rest ih =>
    have hp : ¬ sep.isPrefixOf (c :: rest) := by
      intro hpre
      exact h (List.IsPrefix.isInfix (List.isPrefixOf_iff_prefix.mp hpre))
    have hinf : ¬ sep <:+: rest := by
      intro hinf
      exact h (List.infix_cons_iff.mpr (Or.inr hinf))
    rw [splitOnSub_cons_neg sep c rest hp, ih hinf]
    rfl

/-- Embedding of `field_edits` (src/main_module.py, lines 41-48): the Python
loop over the two markers unrolled — return the part of the field before the
first occurrence of `".mw-"` if present, else before the first `'['` if
present, else the field unchanged. -/
def field_edits (field : List Char) : List Char :=
  if containsSub (strList ".mw-") field then (splitOnSub (strList ".mw-") field).headD []
  else if containsSub (strList "[") field then (splitOnSub (strList "[") field).headD []
  else field

theorem field_edits_eq_mw (field : List Char) (h : (strList ".mw-") <:+: field) :
    field_edits field = takeBeforeFirst (strList ".mw-") field := by
  rw [field_edits, if_pos ((containsSub_iff _ _).mpr h)]
  exact headD_splitOnSub _ (by decide) _

theorem field_edits_eq_lb (field : List Char) (h1 : ¬ (strList ".mw-") <:+: field)
    (h2 : (strList "[") <:+: field) :
    field_edits field = takeBeforeFirst (strList "[") field := by
  rw [field_edits, if_neg (by simp [containsSub_iff, h1]),
    if_pos ((containsSub_iff _ _).mpr h2)]
  exact headD_splitOnSub _ (by decide) _

theorem field_edits_of_clean (field : List Char) (h1 : ¬ (strList ".mw-") <:+: field)
    (h2 : ¬ (strList "[") <:+: field) : field_edits field = field := by
  rw [field_edits, if_neg (by simp [containsSub_iff, h1]),
    if_neg (by simp [containsSub_iff, h2])]

theorem field_edits_isPre (field : List Char) : field_edits field <+: field := by
  by_cases h1 : (strList ".mw-") <:+: field
  · rw [field_edits_eq_mw field h1]
    exact takeBeforeFirst_isPre _ _
  · by_cases h2 : (strList "[") <:+: field
    · rw [field_edits_eq_lb field h1 h2]
      exact takeBeforeFirst_isPre _ _
    · rw [field_edits_of_clean field h1 h2]

theorem field_edits_no_mw (field : List Char) :
    ¬ (strList ".mw-") <:+: field_edits field := by
  by_cases h1 : (strList ".mw-") <:+: field
  · rw [field_edits_eq_mw field h1]
    exact not_in_takeBeforeFirst _ _ (by decide)
  · intro hmw
    exact h1 (hmw.trans (field_edits_isPre field).isInfix)

theorem field_edits_clean_of_no_mw (field : List Char)
    (h1 : ¬ (strList ".mw-") <:+: field) :
    ¬ (strList "[") <:+: field_edits field := by
  by_cases h2 : (strList "[") <:+: field
  · rw [field_edits_eq_lb field h1 h2]
    exact not_in_takeBeforeFirst _ _ (by decide)
  · rw [field_edits_of_clean field h1 h2]
    exact h2

/-- Embedding of `gw_info` (src/main_module.py, lines 77-85): split a nickname
on `" and "`, then `" & "`; keep the first split with exactly two chunks,
falling back to `[nickname, "-"]`. -/
def gw_info (nickname : List Char) : List (List Char) :=
  let asplit := [strList " and ", strList " & "].map (fun sep => splitOnSub sep nickname)
  let sh_info := asplit.filter (fun a => a.length == 2)
  match sh_info with
  | [] => [nickname, strList "-"]
  | a :: _ => a

theorem gw_info_eq (s : List Char) :
    gw_info s =
      (if (splitOnSub (strList " and ") s).length = 2 then splitOnSub (strList " and ") s
       else if (splitOnSub (strList " & ") s).length = 2 then splitOnSub (strList " & ") s
       else [s, strList "-"]) := by
  unfold gw_info
  simp only [List.map_cons, List.map_nil, List.filter]
  cases hA : ((splitOnSub (strList " and ") s).length == 2) with
  | true =>
    have hA' : (splitOnSub (strList " and ") s).length = 2 := by simpa using hA
    simp [hA']
  | false =>
    have hA' : ¬ (splitOnSub (strList " and ") s).length = 2 := by simpa using hA
    cases hB : ((splitOnSub (strList " & ") s).length == 2) with
    | true =>
      have hB' : (splitOnSub (strList " & ") s).length = 2 := by simpa using hB
      simp [hA', hB']
    | false =>
      have hB' : ¬ (splitOnSub (strList " & ") s).length = 2 := by simpa using hB
      simp [hA', hB']

/-- Specification function following the words of claim C1 as stated: the
two chunks produced by a successful split are additionally required to be
non-empty. -/
def gw_two_nonempty_rule (s : List Char) : List (List Char) :=
  if (splitOnSub (strList " and ") s).length = 2 ∧ [] ∉ splitOnSub (strList " and ") s then
    splitOnSub (strList " and ") s
  else if (splitOnSub (strList " & ") s).length = 2 ∧ [] ∉ splitOnSub (strList " & ") s then
    splitOnSub (strList " & ") s
  else [s, strList "-"]

/-- Specification function following the words of the amended claim C1:
exactly two chunks, possibly empty. -/
def gw_two_chunk_rule (s : List Char) : List (List Char) :=
  if (splitOnSub (strList " and ") s).length = 2 then splitOnSub (strList " and ") s
  else if (splitOnSub (strList " & ") s).length = 2 then splitOnSub (strList " & ") s
  else [s, strList "-"]

/-- C1 (counterexample): on the input `" and "` the split on `" and "` yields
exactly two chunks, both empty, so the claim as stated demands the fallback
`(" and ", "-")`; the code instead returns the pair of empty strings. -/
theorem gw_info_nonempty_rule_cex :
    gw_info (strList " and ") = [[], []] ∧
    gw_two_nonempty_rule (strList " and ") = [strList " and ", strList "-"] ∧
    gw_info (strList " and ") ≠ gw_two_nonempty_rule (strList " and ") := by
  have hA : splitOnSub (strList " and ") (strList " and ") = [[], []] := by
    rw [splitOnSub_pos _ _ (by decide) (by decide)]
    have hdrop : (strList " and ").drop (strList " and ").length = ([] : List Char) := by
      decide
    rw [hdrop, splitOnSub_nil]
  have hB : splitOnSub (strList " & ") (strList " and ") = [strList " and "] :=
    splitOnSub_no_occurrence _ _ (by decide)
  have h1 : gw_info (strList " and ") = [[], []] := by
    rw [gw_info_eq, hA, hB]
    decide
  have h2 : gw_two_nonempty_rule (strList " and ") = [strList " and ", strList "-"] := by
    unfold gw_two_nonempty_rule
    rw [hA, hB]
    decide
  exact ⟨h1, h2, by rw [h1, h2]; decide⟩

/-- C1 (amended): the splitter tries `" and "` first and returns its two
chunks whenever that split yields exactly two chunks (empty chunks allowed),
otherwise tries `" & "` under the same rule, otherwise falls back to
`(original, "-")`. -/
theorem gw_info_matches_two_chunk_rule :
    ∀ s : List Char, gw_info s = gw_two_chunk_rule s := by
  intro s
  rw [gw_info_eq]
  rfl

/-- C9: the splitter loses no text — it returns either `(s, "-")` or a pair
`(g, w)` with `g ++ sep ++ w = s` for the separator that was used. -/
theorem gw_info_loses_no_text :
    ∀ s : List Char,
      gw_info s = [s, strList "-"] ∨
      ∃ g w : List Char, gw_info s = [g, w] ∧
        (g ++ strList " and " ++ w = s ∨ g ++ strList " & " ++ w = s) := by
  intro s
  rw [gw_info_eq]
  by_cases hA : (splitOnSub (strList " and ") s).length = 2
  · right
    obtain ⟨g, w, hgw⟩ := List.length_eq_two.mp hA
    refine ⟨g, w, ?_, Or.inl ?_⟩
    · rw [if_pos hA, hgw]
    · have hj := joinSep_splitOnSub (strList " and ") (by decide) s
      rw [hgw] at hj
      simpa [joinSep] using hj
  · by_cases hB : (splitOnSub (strList " & ") s).length = 2
    · right
      obtain ⟨g, w, hgw⟩ := List.length_eq_two.mp hB
      refine ⟨g, w, ?_, Or.inr ?_⟩
      · rw [if_neg hA, if_pos hB, hgw]
      · have hj := joinSep_splitOnSub (strList " & ") (by decide) s
        rw [hgw] at hj
        simpa [joinSep] using hj
    · left
      rw [if_neg hA, if_neg hB]

/-- C2 (counterexample): the cleaner is not idempotent — on `"a[b.mw-c"` the
first application truncates at `".mw-"` leaving `"a[b"`, and a second
application truncates again at `'['`. -/
theorem field_edits_not_idempotent_cex :
    field_edits (strList "a[b.mw-c") = strList "a[b" ∧
    field_edits (field_edits (strList "a[b.mw-c")) = strList "a" ∧
    field_edits (field_edits (strList "a[b.mw-c")) ≠ field_edits (strList "a[b.mw-c") := by
  have h1 : field_edits (strList "a[b.mw-c") = strList "a[b" := by
    rw [field_edits_eq_mw (strList "a[b.mw-c") (by decide)]
    decide
  have h2 : field_edits (strList "a[b") = strList "a" := by
    rw [field_edits_eq_lb (strList "a[b") (by decide) (by decide)]
    decide
  refine ⟨h1, ?_, ?_⟩
  · rw [h1, h2]
  · rw [h1, h2]
    decide

/-- C2 (amended): two applications of the cleaner reach a fixpoint — for
every input, applying the cleaner three times equals applying it twice
(single-application idempotence fails, see the counterexample). -/
theorem field_edits_second_application_fixpoint :
    ∀ field : List Char,
      field_edits (field_edits (field_edits field)) = field_edits (field_edits field) := by
  intro f
  apply field_edits_of_clean
  · exact field_edits_no_mw _
  · exact field_edits_clean_of_no_mw _ (field_edits_no_mw f)

/-- C3: the cleaner truncates at the first occurrence of `".mw-"` when that
marker is present (the kept prefix is the shortest-possible cut, i.e. the
prefix before the first occurrence), otherwise at the first occurrence of
`'['` when present, otherwise returns the field unchanged; in particular
`"Tigers.mw-parser[2]"` cleans to `"Tigers"`. -/
theorem field_edits_first_marker_truncation :
    (∀ field : List Char,
      ((strList ".mw-") <:+: field →
        field_edits field ++ strList ".mw-" <+: field ∧
        ∀ q : List Char, q ++ strList ".mw-" <+: field →
          (field_edits field).length ≤ q.length) ∧
      (¬ (strList ".mw-") <:+: field → (strList "[") <:+: field →
        field_edits field ++ strList "[" <+: field ∧
        ∀ q : List Char, q ++ strList "[" <+: field →
          (field_edits field).length ≤ q.length) ∧
      (¬ (strList ".mw-") <:+: field → ¬ (strList "[") <:+: field →
        field_edits field = field)) ∧
    field_edits (strList "Tigers.mw-parser[2]") = strList "Tigers" := by
  constructor
  · intro field
    refine ⟨?_, ?_, field_edits_of_clean field⟩
    · intro h
      rw [field_edits_eq_mw field h]
      exact ⟨takeBeforeFirst_append_pat _ _ h, fun q hq => takeBeforeFirst_min _ _ q hq⟩
    · intro h1 h2
      rw [field_edits_eq_lb field h1 h2]
      exact ⟨takeBeforeFirst_append_pat _ _ h2, fun q hq => takeBeforeFirst_min _ _ q hq⟩
  · rw [field_edits_eq_mw (strList "Tigers.mw-parser[2]") (by decide)]
    decide

/-- Witness for C3 at concrete inputs: each branch of the truncation rule
instantiated and its hypotheses discharged. -/
theorem field_edits_first_marker_truncation_witness :
    (field_edits (strList "Tigers.mw-parser[2]") ++ strList ".mw-" <+:
      strList "Tigers.mw-parser[2]") ∧
    (field_edits (strList "Tigers[2]") ++ strList "[" <+: strList "Tigers[2]") ∧
    field_edits (strList "Tigers") = strList "Tigers" :=
  ⟨((field_edits_first_marker_truncation.1 (strList "Tigers.mw-parser[2]")).1
      (by decide)).1,
   ((field_edits_first_marker_truncation.1 (strList "Tigers[2]")).2.1
      (by decide) (by decide)).1,
   (field_edits_first_marker_truncation.1 (strList "Tigers")).2.2
      (by decide) (by decide)⟩

/-- C10: the cleaner's output is always a prefix of its input and never
contains the substring `".mw-"`. -/
theorem field_edits_output_invariant :
    ∀ field : List Char,
      field_edits field <+: field ∧ ¬ (strList ".mw-") <:+: field_edits field :=
  fun f => ⟨field_edits_isPre f, field_edits_no_mw f⟩

/-- The two fields of a pooled row record that `analyze`/`concordance`
(src/main_module.py, lines 115-150) actually read. -/
structure SchoolRec where
  institution : List Char
  gname : List Char
deriving DecidableEq

/-- Characters treated as whitespace by Python `str.split()` (ASCII range). -/
def isPySpace (c : Char) : Bool :=
  c == ' ' || c == '\t' || c == '\n' || c == '\r' || c == '\x0b' || c == '\x0c'

/-- Embedding of Python `s.split()` with no argument: split on runs of
whitespace, producing no empty chunks. -/
def splitWs : List Char → List (List Char)
  | [] => []
  | c :: rest =>
    if isPySpace c then splitWs rest
    else
      match rest with
      | [] => [[c]]
      | d :: _ => if isPySpace d then [c] :: splitWs rest else consHead c (splitWs rest)

/-- Embedding of the dict update in `analyze` (lines 126-129): append the row
index to the keyword's entry, or create a new entry at the end (Python dicts
preserve insertion order). -/
def updateEntry : List (List Char × List Nat) → List Char → Nat → List (List Char × List Nat)
  | [], k, i => [(k, [i])]
  | (k', v) :: rest, k, i =>
    if k' = k then (k', v ++ [i]) :: rest else (k', v) :: updateEntry rest k i

/-- Embedding of the `ndict` loop of `analyze` (lines 123-129): enumerate the
pool, split each record's Generic Nickname on whitespace, and append the
record index under each token. -/
def buildWords (pool : List SchoolRec) : List (List Char × List Nat) :=
  pool.enum.foldl
    (fun ndict p =>
      (splitWs p.2.gname).foldl (fun d keyword => updateEntry d keyword p.1) ndict)
    []

/-- Dictionary lookup with `[]` for a missing key. -/
def wordsLookup : List (List Char × List Nat) → List Char → List Nat
  | [], _ => []
  | (k', v) :: rest, k => if k' = k then v else wordsLookup rest k

/-- Modelled from claim C6: under keyword `k`, the indices listed are, in
record-iteration order, one copy of the record's positional index per
occurrence of `k` among the whitespace tokens of its Generic Nickname. -/
def wordsSpec (pool : List SchoolRec) (k : List Char) : List Nat :=
  pool.enum.flatMap
    (fun p => (splitWs p.2.gname).filterMap (fun t => if t = k then some p.1 else none))

theorem wordsLookup_updateEntry (d : List (List Char × List Nat)) (k' : List Char)
    (i : Nat) (k : List Char) :
    wordsLookup (updateEntry d k' i) k =
      if k' = k then wordsLookup d k ++ [i] else wordsLookup d k := by
  induction d with
  | nil =>
    by_cases h : k' = k <;> simp [updateEntry, wordsLookup, h]
  | cons a rest ih =>
    obtain ⟨ak, av⟩ := a
    by_cases h1 : ak = k' <;> by_cases h2 : k' = k <;>
      simp_all [updateEntry, wordsLookup]

theorem wordsLookup_foldl_tokens (ts : List (List Char)) (i : Nat)
    (d : List (List Char × List Nat)) (k : List Char) :
    wordsLookup (ts.foldl (fun d2 keyword => updateEntry d2 keyword i) d) k =
      wordsLookup d k ++ ts.filterMap (fun t => if t = k then some i else none) := by
  induction ts generalizing d with
  | nil => simp
  | cons t ts ih =>
    simp only [List.foldl_cons, ih, wordsLookup_updateEntry]
    by_cases h : t = k
    · simp [h]
    · simp [h]

theorem wordsLookup_buildWords_from (pool : List SchoolRec) (k : List Char) :
    ∀ (n : Nat) (d : List (List Char × List Nat)),
    wordsLookup ((pool.enumFrom n).foldl
      (fun ndict p =>
        (splitWs p.2.gname).foldl (fun d2 keyword => updateEntry d2 keyword p.1) ndict) d) k =
      wordsLookup d k ++
        (pool.enumFrom n).flatMap
          (fun p => (splitWs p.2.gname).filterMap
            (fun t => if t = k then some p.1 else none)) := by
  induction pool with
  | nil => simp
  | cons r rs ih =>
    intro n d
    simp only [List.enumFrom_cons, List.foldl_cons, List.flatMap_cons]
    rw [ih, wordsLookup_foldl_tokens, List.append_assoc]

/-- C6: the words index built by `analyze` maps each whitespace token of each
record's Generic Nickname to that record's positional index, appended once per
occurrence in record-iteration order — for every pool and keyword, the stored
index list equals the occurrence-by-occurrence specification. -/
theorem buildWords_matches_spec :
    ∀ (pool : List SchoolRec) (k : List Char),
      wordsLookup (buildWords pool) k = wordsSpec pool k := by
  intro pool k
  unfold buildWords wordsSpec
  rw [show pool.enum = pool.enumFrom 0 from rfl, wordsLookup_buildWords_from]
  simp [wordsLookup]

/-- Python string comparison `a <= b`: lexicographic by code point, a proper
prefix compares as smaller. -/
def lexLe : List Char → List Char → Bool
  | [], _ => true
  | _ :: _, [] => false
  | a :: as, b :: bs =>
    if a.toNat < b.toNat then true
    else if b.toNat < a.toNat then false
    else lexLe as bs

theorem lexLe_total (a b : List Char) : lexLe a b = true ∨ lexLe b a = true := by
  induction a generalizing b with
  | nil => left; rfl
  | cons x xs ih =>
    cases b with
    | nil => right; rfl
    | cons y ys =>
      rcases Nat.lt_trichotomy x.toNat y.toNat with h | h | h
      · left
        simp [lexLe, h]
      · have h1 : ¬ x.toNat < y.toNat := by omega
        have h2 : ¬ y.toNat < x.toNat := by omega
        rcases ih ys with hl | hr
        · left
          simp [lexLe, h1, h2, hl]
        · right
          simp [lexLe, h1, h2, hr]
      · right
        simp [lexLe, h]

theorem lexLe_trans (a b c : List Char) (h1 : lexLe a b = true)
    (h2 : lexLe b c = true) : lexLe a c = true := by
  induction a generalizing b c with
  | nil => rfl
  | cons x xs ih =>
    cases b with
    | nil => simp [lexLe] at h1
    | cons y ys =>
      cases c with
      | nil => simp [lexLe] at h2
      | cons z zs =>
        simp only [lexLe] at h1 h2 ⊢
        by_cases hxy : x.toNat < y.toNat
        · by_cases hyz : y.toNat < z.toNat
          · have hxz : x.toNat < z.toNat := by omega
            rw [if_pos hxz]
          · by_cases hzy : z.toNat < y.toNat
            · rw [if_neg hyz, if_pos hzy] at h2
              exact absurd h2 (by simp)
            · have hxz : x.toNat < z.toNat := by omega
              rw [if_pos hxz]
        · by_cases hyx : y.toNat < x.toNat
          · rw [if_neg hxy, if_pos hyx] at h1
            exact absurd h1 (by simp)
          · by_cases hyz : y.toNat < z.toNat
            · have hxz : x.toNat < z.toNat := by omega
              rw [if_pos hxz]
            · by_cases hzy : z.toNat < y.toNat
              · rw [if_neg hyz, if_pos hzy] at h2
                exact absurd h2 (by simp)
              · rw [if_neg hxy, if_neg hyx] at h1
                rw [if_neg hyz, if_neg hzy] at h2
                have hxz1 : ¬ x.toNat < z.toNat := by omega
                have hxz2 : ¬ z.toNat < x.toNat := by omega
                rw [if_neg hxz1, if_neg hxz2]
                exact ih ys zs h1 h2

/-- Insert into a sorted list (the inner step of the model of Python
`sorted`). -/
def insertLe (x : List Char) : List (List Char) → List (List Char)
  | [] => [x]
  | y :: ys => if lexLe x y then x :: y :: ys else y :: insertLe x ys

/-- Model of Python `sorted(...)` on a list of strings: stable insertion sort
by `lexLe`. -/
def sortLe (l : List (List Char)) : List (List Char) := l.foldr insertLe []

theorem mem_insertLe (z x : List Char) (l : List (List Char)) :
    z ∈ insertLe x l ↔ z = x ∨ z ∈ l := by
  induction l with
  | nil => simp [insertLe]
  | cons y ys ih =>
    by_cases h : lexLe x y
    · simp [insertLe, h]
    · simp [insertLe, h, ih]
      tauto

theorem pairwise_insertLe (x : List Char) (l : List (List Char))
    (hl : List.Pairwise (fun a b => lexLe a b = true) l) :
    List.Pairwise (fun a b => lexLe a b = true) (insertLe x l) := by
  induction l with
  | nil => simp [insertLe]
  | cons y ys ih =>
    rcases List.pairwise_cons.mp hl with ⟨hy, hys⟩
    by_cases h : lexLe x y
    · rw [insertLe, if_pos h]
      refine List.pairwise_cons.mpr ⟨?_, hl⟩
      intro z hz
      rcases List.mem_cons.mp hz with hz | hz
      · rw [hz]
        exact h
      · exact lexLe_trans x y z h (hy z hz)
    · rw [insertLe, if_neg h]
      refine List.pairwise_cons.mpr ⟨?_, ih hys⟩
      intro z hz
      rcases (mem_insertLe z x ys).mp hz with hz | hz
      · rcases lexLe_total x y with hxy | hyx
        · exact absurd hxy h
        · rw [hz]
          exact hyx
      · exact hy z hz

theorem pairwise_sortLe (l : List (List Char)) :
    List.Pairwise (fun a b => lexLe a b = true) (sortLe l) := by
  induction l with
  | nil => exact List.Pairwise.nil
  | cons x xs ih => exact pairwise_insertLe x (sortLe xs) ih

/-- Embedding of the local helper `sc_and_n` in `concordance` (lines 137-139):
`' '.join([Institution, Generic Nickname])` of the pool record at the given
index. -/
def sc_and_n (pool : List SchoolRec) (school : Nat) : List Char :=
  (pool.getD school ⟨[], []⟩).institution ++ ' ' :: (pool.getD school ⟨[], []⟩).gname

/-- Embedding of the output loop of `concordance` (lines 141-150): iterate the
keywords of the words dict in sorted order; the first component accumulates
the text written to `dictionary.txt` (`keyword:` line, then one tab-indented
line per school), the second the keyword-to-list mapping dumped to
`dictionary.json`. -/
def concordance_run (pool : List SchoolRec) :
    List Char × List (List Char × List (List Char)) :=
  let words := buildWords pool
  (sortLe (words.map Prod.fst)).foldl
    (fun acc keyword =>
      let entries := (wordsLookup words keyword).map (sc_and_n pool)
      (acc.1 ++ keyword ++ [':', '\n'] ++ entries.flatMap (fun e => '\t' :: e ++ ['\n']),
       acc.2 ++ [(keyword, entries)]))
    ([], [])

/-- Specification-side rendering of the JSON content as text: one block per
keyword, `keyword:` then one tab-indented line per entry. -/
def renderBlocks (j : List (List Char × List (List Char))) : List Char :=
  j.flatMap (fun p => p.1 ++ [':', '\n'] ++ p.2.flatMap (fun e => '\t' :: e ++ ['\n']))

theorem foldl_blocks (entries : List Char → List (List Char)) (ks : List (List Char)) :
    ∀ (t0 : List Char) (j0 : List (List Char × List (List Char))),
    (ks.foldl
      (fun acc keyword =>
        (acc.1 ++ keyword ++ [':', '\n'] ++
            (entries keyword).flatMap (fun e => '\t' :: e ++ ['\n']),
         acc.2 ++ [(keyword, entries keyword)]))
      (t0, j0)) =
    (t0 ++ renderBlocks (ks.map (fun k => (k, entries k))),
     j0 ++ ks.map (fun k => (k, entries k))) := by
  induction ks with
  | nil => simp [renderBlocks]
  | cons k ks ih =>
    intro t0 j0
    simp only [List.foldl_cons, List.map_cons, renderBlocks, List.flatMap_cons, ih]
    simp [renderBlocks, List.append_assoc]

/-- C7: the text report and the JSON object written by `concordance` agree —
the text file is exactly the block-rendering of the JSON keyword-to-list
mapping — and the keyword blocks appear in ascending lexical (case-sensitive,
code-point) order. -/
theorem concordance_text_json_consistent :
    ∀ pool : List SchoolRec,
      (concordance_run pool).1 = renderBlocks (concordance_run pool).2 ∧
      List.Pairwise (fun a b => lexLe a b = true)
        ((concordance_run pool).2.map Prod.fst) := by
  intro pool
  have h := foldl_blocks
    (fun keyword => (wordsLookup (buildWords pool) keyword).map (sc_and_n pool))
    (sortLe ((buildWords pool).map Prod.fst)) [] []
  have hrun : concordance_run pool =
      ((sortLe ((buildWords pool).map Prod.fst)).map
          (fun k => (k, (wordsLookup (buildWords pool) k).map (sc_and_n pool))) |>
        fun m => (renderBlocks m, m)) := by
    unfold concordance_run
    simpa using h
  rw [hrun]
  refine ⟨rfl, ?_⟩
  have hmap : ((sortLe ((buildWords pool).map Prod.fst)).map
      (fun k => (k, (wordsLookup (buildWords pool) k).map (sc_and_n pool)))).map Prod.fst =
      sortLe ((buildWords pool).map Prod.fst) := by
    have hcomp : (Prod.fst ∘ fun k : List Char =>
        (k, (wordsLookup (buildWords pool) k).map (sc_and_n pool))) = id := rfl
    rw [List.map_map, hcomp, List.map_id]
  simpa [hmap] using pairwise_sortLe ((buildWords pool).map Prod.fst)

/-- Model of a pandas dataframe: named columns plus rows of cell values, each
row aligned positionally with the column list. -/
structure DFrame where
  cols : List (List Char)
  rows : List (List (List Char))
deriving DecidableEq

/-- Indices of ALL columns carrying the given label, in column order.  pandas
keeps duplicate labels, and label-based access addresses every matching
column, so the model must track all of them. -/
def colIdxsAll : List (List Char) → List Char → List Nat
  | [], _ => []
  | c :: rest, name =>
    if c = name then 0 :: (colIdxsAll rest name).map (· + 1)
    else (colIdxsAll rest name).map (· + 1)

theorem colIdxsAll_eq_nil (cols : List (List Char)) (name : List Char) :
    colIdxsAll cols name = [] ↔ name ∉ cols := by
  induction cols with
  | nil => simp [colIdxsAll]
  | cons c rest ih =>
    by_cases h : c = name
    · simp [colIdxsAll, h]
    · rw [colIdxsAll, if_neg h]
      constructor
      · intro hmap hmem
        have hrest : colIdxsAll rest name = [] := by
          cases hr : colIdxsAll rest name with
          | nil => rfl
          | cons a t =>
            rw [hr] at hmap
            simp at hmap
        rcases List.mem_cons.mp hmem with he | hm
        · exact h he.symm
        · exact (ih.mp hrest) hm
      · intro hnm
        have hr : name ∉ rest := fun hm => hnm (List.mem_cons_of_mem _ hm)
        rw [ih.mpr hr]
        rfl

theorem mem_of_colIdxsAll_ne_nil {cols : List (List Char)} {name : List Char}
    (h : colIdxsAll cols name ≠ []) : name ∈ cols := by
  by_contra hn
  exact h ((colIdxsAll_eq_nil _ _).mpr hn)

theorem label_of_colIdxsAll (cols : List (List Char)) (name : List Char) :
    ∀ i ∈ colIdxsAll cols name, cols.getD i [] = name := by
  induction cols with
  | nil =>
    intro i hi
    simp [colIdxsAll] at hi
  | cons c rest ih =>
    intro i hi
    by_cases h : c = name
    · rw [colIdxsAll, if_pos h] at hi
      rcases List.mem_cons.mp hi with hz | hz
      · rw [hz]
        simpa using h
      · rcases List.mem_map.mp hz with ⟨j, hj, hji⟩
        rw [← hji]
        simpa using ih j hj
    · rw [colIdxsAll, if_neg h] at hi
      rcases List.mem_map.mp hi with ⟨j, hj, hji⟩
      rw [← hji]
      simpa using ih j hj

/-- Embedding of a `data_frm[name]` read that immediately feeds an
element-wise string operation (every read in this program does): KeyError
when the label is absent; with a unique label, the column's values; with
duplicated labels `data_frm[name]` is a multi-column frame and the subsequent
per-string operation (`.split`, slicing) fails on the column objects. -/
def getCol (df : DFrame) (name : List Char) : Except (List Char) (List (List Char)) :=
  match colIdxsAll df.cols name with
  | [] => Except.error (strList "KeyError")
  | [i] => Except.ok (df.rows.map (fun r => r.getD i []))
  | _ :: _ :: _ => Except.error (strList "AttributeError")

/-- Embedding of `data_frm[name] = vals`: pandas assignment with a duplicated
label writes every matching column; with no match the column is appended. -/
def setCol (df : DFrame) (name : List Char) (vals : List (List Char)) : DFrame :=
  match colIdxsAll df.cols name with
  | [] => { cols := df.cols ++ [name], rows := List.zipWith (fun r v => r ++ [v]) df.rows vals }
  | i :: it =>
    { cols := df.cols,
      rows := List.zipWith (fun r v => (i :: it).foldl (fun rr j => rr.set j v) r) df.rows vals }

/-- Embedding of `data_frm.rename(columns=\x7bo: n\x7d)`: every column labelled
`o` is relabelled `n`; absent labels are silently ignored (pandas default). -/
def renameCol (df : DFrame) (o n : List Char) : DFrame :=
  { cols := df.cols.map (fun c => if c = o then n else c), rows := df.rows }

/-- Label lookup for a list of names (the column projection `df[clist]`):
each requested label contributes ALL of its matching column positions. -/
def colSelection (cols : List (List Char)) : List (List Char) → Option (List Nat)
  | [] => some []
  | n :: rest =>
    match colIdxsAll cols n, colSelection cols rest with
    | i :: it, some js => some ((i :: it) ++ js)
    | _, _ => none

/-- Embedding of the column projection `data_frm[clist]`: KeyError if a label
is absent; every column matching each requested label is kept (so duplicated
labels survive projection). -/
def selectCols (df : DFrame) (names : List (List Char)) : Except (List Char) DFrame :=
  match colSelection df.cols names with
  | none => Except.error (strList "KeyError")
  | some idxs =>
    Except.ok { cols := idxs.map (fun i => df.cols.getD i []),
                rows := df.rows.map (fun r => idxs.map (fun i => r.getD i [])) }

theorem getCol_err {df : DFrame} {name : List Char} (h : name ∉ df.cols) :
    getCol df name = Except.error (strList "KeyError") := by
  rw [getCol, (colIdxsAll_eq_nil _ _).mpr h]

theorem setCol_cols_of_mem {df : DFrame} {name : List Char} (vals : List (List Char))
    (h : name ∈ df.cols) : (setCol df name vals).cols = df.cols := by
  cases hc : colIdxsAll df.cols name with
  | nil => exact absurd h (fun hm => ((colIdxsAll_eq_nil _ _).mp hc) hm)
  | cons i it => simp [setCol, hc]

theorem mem_setCol_of_mem {df : DFrame} {x : List Char} (name : List Char)
    (vals : List (List Char)) (h : x ∈ df.cols) : x ∈ (setCol df name vals).cols := by
  rw [setCol]
  cases colIdxsAll df.cols name with
  | nil => exact List.mem_append_left _ h
  | cons i it => exact h

theorem mem_setCol_self (df : DFrame) (name : List Char) (vals : List (List Char)) :
    name ∈ (setCol df name vals).cols := by
  rw [setCol]
  cases hc : colIdxsAll df.cols name with
  | nil => exact List.mem_append_right _ (by simp)
  | cons i it => exact mem_of_colIdxsAll_ne_nil (by rw [hc]; simp)

theorem not_mem_setCol {df : DFrame} {x : List Char} (name : List Char)
    (vals : List (List Char)) (h1 : x ∉ df.cols) (h2 : x ≠ name) :
    x ∉ (setCol df name vals).cols := by
  rw [setCol]
  cases colIdxsAll df.cols name with
  | cons i it => exact h1
  | nil =>
    intro hmem
    rcases List.mem_append.mp hmem with hmem | hmem
    · exact h1 hmem
    · simp at hmem
      exact h2 hmem

theorem mem_renameCol_of_ne {df : DFrame} {x : List Char} {o : List Char}
    (n : List Char) (h1 : x ∈ df.cols) (h2 : x ≠ o) :
    x ∈ (renameCol df o n).cols := by
  rw [renameCol]
  exact List.mem_map.mpr ⟨x, h1, by simp [h2]⟩

theorem mem_renameCol_new {df : DFrame} {o : List Char} (n : List Char)
    (h : o ∈ df.cols) : n ∈ (renameCol df o n).cols := by
  rw [renameCol]
  exact List.mem_map.mpr ⟨o, h, by simp⟩

theorem not_mem_renameCol {df : DFrame} {x : List Char} (o : List Char) {n : List Char}
    (h1 : x ∉ df.cols) (h2 : x ≠ n) : x ∉ (renameCol df o n).cols := by
  rw [renameCol]
  intro hmem
  rcases List.mem_map.mp hmem with ⟨a, ha, hax⟩
  by_cases hc : a = o
  · rw [if_pos hc] at hax
    exact h2 hax.symm
  · rw [if_neg hc] at hax
    exact h1 (hax ▸ ha)

theorem renameCol_cols_of_not_mem {df : DFrame} {o : List Char} (n : List Char)
    (h : o ∉ df.cols) : (renameCol df o n).cols = df.cols := by
  rw [renameCol]
  have he : ∀ a ∈ df.cols, (if a = o then n else a) = id a :=
    fun a ha => if_neg (fun (hc : a = o) => h (hc ▸ ha))
  simp only [List.map_eq_map_iff.mpr he, List.map_id]

/-- Embedding of the statement `data_frm[entry] = data_frm[entry].apply(field_edits)`
(src/main_module.py, lines 54-55 and line 73).  Missing label: KeyError.
Unique label: the column is a Series and `field_edits` edits each cell.
Duplicated label: `data_frm[entry]` is a multi-column frame, `DataFrame.apply`
hands each whole column to `field_edits`, whose `in` tests are then
index-membership tests on a column object and both come out false, so the
columns are written back unchanged. -/
def apply_field_edits (d : DFrame) (entry : List Char) : Except (List Char) DFrame :=
  match colIdxsAll d.cols entry with
  | [] => Except.error (strList "KeyError")
  | [i] =>
    Except.ok { cols := d.cols,
                rows := d.rows.map (fun r => r.set i (field_edits (r.getD i []))) }
  | _ :: _ :: _ => Except.ok d

/-- Embedding of `cleanup` (src/main_module.py, lines 50-56): apply
`field_edits` to every listed column, then project down to those columns. -/
def cleanup (clist : List (List Char)) (data_frm : DFrame) : Except (List Char) DFrame := do
  let d ← clist.foldlM apply_field_edits data_frm
  selectCols d clist

/-- Static `ASSOC` table of src/main_module.py, lines 29-32 (note the
underscore/space discrepancies present in the source). -/
def ASSOC : List (List Char × Nat) :=
  [(strList "NCAA_Division_I_institutions", 1),
   (strList "NCAA Division_II_institutions", 0),
   (strList "NCAA Division_III_institutions", 0),
   (strList "NAIA_institutions", 0)]

/-- The per-row lambda of src/main_module.py, lines 70-72:
`list(ASSOC.keys())[assoc_indx][0:-len('_institutions')]` — indexing the key
list raises IndexError for an out-of-range `assoc_indx`. -/
def assoc_key_slice (assoc_indx : Nat) : Except (List Char) (List Char) :=
  match (ASSOC.map Prod.fst).get? assoc_indx with
  | none => Except.error (strList "IndexError")
  | some key => Except.ok (key.take (key.length - (strList "_institutions").length))

/-- Body of `rfmt_df` after the `State`-prefixed column `sthead` has been
located (src/main_module.py, lines 64-75).  The `Association` column comes
from `data_frm.apply(lambda, axis=1)` with the lambda `assoc_key_slice`: it
runs once per row, so an out-of-range `assoc_indx` raises IndexError exactly
when the frame has at least one row (`apply` never calls the lambda on an
empty frame). -/
def rfmt_df_core (data_frm : DFrame) (assoc_indx : Nat) (sthead : List Char) :
    Except (List Char) DFrame := do
  let d1 := renameCol data_frm sthead (strList "State")
  let d2 := renameCol d1 (strList "Primary") (strList "Conference")
  let d3 := if strList "Common name" ∈ d2.cols
    then renameCol d2 (strList "Common name") (strList "Institution")
    else renameCol d2 (strList "School") (strList "Institution")
  let assocVals ← (List.range d3.rows.length).mapM (fun _ => assoc_key_slice assoc_indx)
  let d4 := setCol d3 (strList "Association") assocVals
  let d5 ← apply_field_edits d4 (strList "Nickname")
  cleanup [strList "Institution", strList "Nickname", strList "City",
           strList "State", strList "Conference", strList "Association"] d5

/-- Embedding of `rfmt_df` (src/main_module.py, lines 58-75): rename the first
`State`-prefixed column to `State` (IndexError when none exists), rename
`Primary` to `Conference`, rename `Common name` (else `School`) to
`Institution`, add the constant `Association` column, clean the `Nickname`
column, and project to the six common columns. -/
def rfmt_df (data_frm : DFrame) (assoc_indx : Nat) : Except (List Char) DFrame :=
  match data_frm.cols.filter (fun a => (strList "State").isPrefixOf a) with
  | [] => Except.error (strList "IndexError")
  | sthead :: _ => rfmt_df_core data_frm assoc_indx sthead

theorem apply_field_edits_ok {d : DFrame} {entry : List Char} (h : entry ∈ d.cols) :
    ∃ d2, apply_field_edits d entry = Except.ok d2 ∧ d2.cols = d.cols := by
  rw [apply_field_edits]
  cases hc : colIdxsAll d.cols entry with
  | nil => exact absurd h (fun hm => ((colIdxsAll_eq_nil _ _).mp hc) hm)
  | cons i it =>
    cases it with
    | nil => exact ⟨_, rfl, rfl⟩
    | cons j more => exact ⟨d, rfl, rfl⟩

theorem apply_field_edits_err {d : DFrame} {entry : List Char} (h : entry ∉ d.cols) :
    apply_field_edits d entry = Except.error (strList "KeyError") := by
  rw [apply_field_edits, (colIdxsAll_eq_nil _ _).mpr h]

theorem cleanup_foldlM_ok (l : List (List Char)) :
    ∀ d : DFrame, (∀ n ∈ l, n ∈ d.cols) →
    ∃ d2, l.foldlM apply_field_edits d = Except.ok d2 ∧ d2.cols = d.cols := by
  induction l with
  | nil => exact fun d _ => ⟨d, rfl, rfl⟩
  | cons e rest ih =>
    intro d h
    obtain ⟨d1, hd1, hcols1⟩ := apply_field_edits_ok (h e (by simp))
    obtain ⟨d2, hd2, hcols2⟩ := ih d1
      (fun n hn => hcols1 ▸ h n (List.mem_cons_of_mem _ hn))
    refine ⟨d2, ?_, by rw [hcols2, hcols1]⟩
    rw [List.foldlM_cons, hd1]
    simpa using hd2

theorem colSelection_some {cols : List (List Char)} (names : List (List Char))
    (h : ∀ n ∈ names, n ∈ cols) :
    ∃ idxs, colSelection cols names = some idxs ∧
      ∀ c, (c ∈ idxs.map (fun i => cols.getD i []) ↔ c ∈ names) := by
  induction names with
  | nil => exact ⟨[], rfl, by simp⟩
  | cons n rest ih =>
    obtain ⟨idxs, hsel, hlab⟩ := ih (fun m hm => h m (List.mem_cons_of_mem _ hm))
    cases hni : colIdxsAll cols n with
    | nil => exact absurd (h n (by simp)) (fun hm => ((colIdxsAll_eq_nil _ _).mp hni) hm)
    | cons i it =>
      refine ⟨(i :: it) ++ idxs, by simp [colSelection, hni, hsel], ?_⟩
      intro c
      have hfirst : ∀ j ∈ i :: it, cols.getD j [] = n := by
        intro j hj
        exact label_of_colIdxsAll cols n j (by rw [hni]; exact hj)
      constructor
      · intro hmem
        rw [List.map_append] at hmem
        rcases List.mem_append.mp hmem with hl | hr
        · rcases List.mem_map.mp hl with ⟨j, hj, hjc⟩
          rw [← hjc, hfirst j hj]
          exact List.mem_cons_self _ _
        · exact List.mem_cons_of_mem _ ((hlab c).mp hr)
      · intro hmem
        rw [List.map_append]
        rcases List.mem_cons.mp hmem with he | hm
        · refine List.mem_append.mpr (Or.inl ?_)
          exact List.mem_map.mpr
            ⟨i, List.mem_cons_self _ _, by rw [hfirst i (List.mem_cons_self _ _), he]⟩
        · exact List.mem_append.mpr (Or.inr ((hlab c).mpr hm))

theorem selectCols_ok_labels {df : DFrame} (names : List (List Char))
    (h : ∀ n ∈ names, n ∈ df.cols) :
    ∃ out, selectCols df names = Except.ok out ∧
      ∀ c, (c ∈ out.cols ↔ c ∈ names) := by
  obtain ⟨idxs, hsel, hlab⟩ := colSelection_some names h
  refine ⟨{ cols := idxs.map (fun i => df.cols.getD i []),
            rows := df.rows.map (fun r => idxs.map (fun i => r.getD i [])) },
    ?_, hlab⟩
  simp [selectCols, hsel]

theorem cleanup_ok_labels (clist : List (List Char)) (df : DFrame)
    (h : ∀ n ∈ clist, n ∈ df.cols) :
    ∃ out, cleanup clist df = Except.ok out ∧ ∀ c, (c ∈ out.cols ↔ c ∈ clist) := by
  obtain ⟨d2, hd2, hcols⟩ := cleanup_foldlM_ok clist df h
  obtain ⟨out, hout, hocols⟩ := selectCols_ok_labels clist (fun n hn => hcols ▸ h n hn)
  refine ⟨out, ?_, hocols⟩
  rw [cleanup, hd2]
  simpa using hout

theorem cleanup_err_head (e : List Char) (rest : List (List Char)) (df : DFrame)
    (h : e ∉ df.cols) :
    cleanup (e :: rest) df = Except.error (strList "KeyError") := by
  rw [cleanup, List.foldlM_cons, apply_field_edits_err h]
  rfl

theorem ok_bind {α β : Type} (a : α) (f : α → Except (List Char) β) :
    (Except.ok a >>= f) = f a := rfl

theorem rfmt_df_eq_core (df : DFrame) (ai : Nat) (sthead : List Char)
    (t : List (List Char))
    (hf : df.cols.filter (fun a => (strList "State").isPrefixOf a) = sthead :: t) :
    rfmt_df df ai = rfmt_df_core df ai sthead := by
  unfold rfmt_df
  rw [hf]

theorem rfmt_df_err_of_no_state (df : DFrame) (ai : Nat)
    (hf : df.cols.filter (fun a => (strList "State").isPrefixOf a) = []) :
    rfmt_df df ai = Except.error (strList "IndexError") := by
  unfold rfmt_df
  rw [hf]

theorem mapM_const_ok {β : Type} (l : List Nat) (v : β) :
    l.mapM (fun _ => (Except.ok v : Except (List Char) β)) =
      Except.ok (l.map (fun _ => v)) := by
  induction l with
  | nil => rfl
  | cons a t ih =>
    rw [List.mapM_cons, ih]
    rfl

theorem assoc_key_slice_ok (assoc_indx : Nat) (hai : assoc_indx < ASSOC.length) :
    ∃ v, assoc_key_slice assoc_indx = Except.ok v := by
  have hlen : assoc_indx < (ASSOC.map Prod.fst).length := by simpa using hai
  obtain ⟨key, hkey⟩ : ∃ key, (ASSOC.map Prod.fst).get? assoc_indx = some key :=
    ⟨_, List.get?_eq_get hlen⟩
  exact ⟨_, by rw [assoc_key_slice, hkey]⟩

theorem assoc_mapM_ok (n assoc_indx : Nat) (hai : assoc_indx < ASSOC.length) :
    ∃ vals, ((List.range n).mapM (fun _ => assoc_key_slice assoc_indx)) =
      Except.ok vals := by
  obtain ⟨v, hv⟩ := assoc_key_slice_ok assoc_indx hai
  have hfun : (fun _ : Nat => assoc_key_slice assoc_indx) =
      (fun _ : Nat => (Except.ok v : Except (List Char) (List Char))) :=
    funext (fun _ => hv)
  rw [hfun]
  exact ⟨_, mapM_const_ok _ _⟩

theorem bind_err_of_all {α β : Type} (x : Except (List Char) α)
    (g : α → Except (List Char) β)
    (h : ∀ a, ∃ err, g a = Except.error err) :
    ∃ err, (x >>= g) = Except.error err := by
  cases x with
  | error e => exact ⟨e, rfl⟩
  | ok a =>
    obtain ⟨err, herr⟩ := h a
    exact ⟨err, (ok_bind a g).trans herr⟩

theorem stage_after_d3_ok (d3 : DFrame) (vals : List (List Char))
    (hI : strList "Institution" ∈ d3.cols) (hN : strList "Nickname" ∈ d3.cols)
    (hC : strList "City" ∈ d3.cols) (hS : strList "State" ∈ d3.cols)
    (hF : strList "Conference" ∈ d3.cols) :
    ∃ out,
      (apply_field_edits (setCol d3 (strList "Association") vals)
          (strList "Nickname") >>= fun d5 =>
        cleanup [strList "Institution", strList "Nickname", strList "City",
                 strList "State", strList "Conference", strList "Association"] d5) =
        Except.ok out ∧
      ∀ c, (c ∈ out.cols ↔
        c ∈ [strList "Institution", strList "Nickname", strList "City",
             strList "State", strList "Conference", strList "Association"]) := by
  obtain ⟨d5, hd5, hcols5⟩ :=
    apply_field_edits_ok (mem_setCol_of_mem (strList "Association") vals hN)
  rw [hd5, ok_bind]
  have hmem : ∀ n ∈ [strList "Institution", strList "Nickname", strList "City",
      strList "State", strList "Conference", strList "Association"],
      n ∈ d5.cols := by
    intro n hn
    rw [hcols5]
    have hd4 : ∀ {x : List Char}, x ∈ d3.cols →
        x ∈ (setCol d3 (strList "Association") vals).cols :=
      fun hx => mem_setCol_of_mem _ _ hx
    simp only [List.mem_cons, List.not_mem_nil, or_false] at hn
    rcases hn with h | h | h | h | h | h
    · exact h ▸ hd4 hI
    · exact h ▸ hd4 hN
    · exact h ▸ hd4 hC
    · exact h ▸ hd4 hS
    · exact h ▸ hd4 hF
    · exact h ▸ mem_setCol_self d3 (strList "Association") vals
  obtain ⟨out, hout, hcols⟩ := cleanup_ok_labels _ _ hmem
  exact ⟨out, hout, hcols⟩

theorem stage_after_d3_err (d3 : DFrame) (vals : List (List Char))
    (hI : strList "Institution" ∉ d3.cols) :
    ∃ err,
      (apply_field_edits (setCol d3 (strList "Association") vals)
          (strList "Nickname") >>= fun d5 =>
        cleanup [strList "Institution", strList "Nickname", strList "City",
                 strList "State", strList "Conference", strList "Association"] d5) =
        Except.error err := by
  by_cases hN : strList "Nickname" ∈ (setCol d3 (strList "Association") vals).cols
  · obtain ⟨d5, hd5, hcols5⟩ := apply_field_edits_ok hN
    rw [hd5, ok_bind]
    refine ⟨strList "KeyError", cleanup_err_head _ _ _ ?_⟩
    rw [hcols5]
    exact not_mem_setCol _ _ hI (by decide)
  · refine ⟨strList "KeyError", ?_⟩
    rw [apply_field_edits_err hN]
    rfl

/-- The duplicate-label input refuting claim C4: both `State/Province` and
`State` are columns, so renaming the first `State`-prefixed column (line 64)
creates a second `State` label, and the projection `data_frm[clist]` (line 56)
keeps every column matching each requested label. -/
def c4dupdf : DFrame :=
  { cols := [strList "State/Province", strList "State", strList "School",
             strList "Nickname", strList "City", strList "Primary"],
    rows := [[strList "OH", strList "USA", strList "Acme U",
              strList "Tigers", strList "Columbus", strList "Mid-Conf"]] }

/-- C4 (counterexample): `c4dupdf` satisfies every hypothesis of the claim —
a `State`-prefixed column, `Nickname`, `City`, `Primary`, and `School` — yet
the normalizer returns a SEVEN-column table in which the label `State`
appears twice, not "exactly the six columns". -/
theorem rfmt_df_seven_cols_cex :
    (∃ c ∈ c4dupdf.cols, (strList "State").isPrefixOf c) ∧
    strList "Nickname" ∈ c4dupdf.cols ∧
    strList "City" ∈ c4dupdf.cols ∧
    strList "Primary" ∈ c4dupdf.cols ∧
    (strList "Common name" ∈ c4dupdf.cols ∨ strList "School" ∈ c4dupdf.cols) ∧
    ∃ out, rfmt_df c4dupdf 0 = Except.ok out ∧
      out.cols = [strList "Institution", strList "Nickname", strList "City",
                  strList "State", strList "State", strList "Conference",
                  strList "Association"] := by
  refine ⟨⟨strList "State/Province", by decide, by decide⟩, by decide, by decide,
    by decide, Or.inr (by decide), ⟨_, rfl, rfl⟩⟩

/-- C4 (amended): on any input table having some `State`-prefixed column, a
`Nickname`, `City` and `Primary` column, and at least one of `Common name` /
`School`, and for a registered association index, the Schema Normalizer
succeeds and the output's column labels are exactly the six names
Institution, Nickname, City, State, Conference, Association AS A SET — each
present and nothing else — though a label may occur more than once when the
renames make several source columns share it. -/
theorem rfmt_df_normalizes_labels :
    ∀ (df : DFrame) (assoc_indx : Nat),
      assoc_indx < ASSOC.length →
      (∃ c ∈ df.cols, (strList "State").isPrefixOf c) →
      strList "Nickname" ∈ df.cols →
      strList "City" ∈ df.cols →
      strList "Primary" ∈ df.cols →
      (strList "Common name" ∈ df.cols ∨ strList "School" ∈ df.cols) →
      ∃ out, rfmt_df df assoc_indx = Except.ok out ∧
        ∀ c, (c ∈ out.cols ↔
          c ∈ [strList "Institution", strList "Nickname", strList "City",
               strList "State", strList "Conference", strList "Association"]) := by
  intro df ai hai hstate hnick hcity hprim hinst
  obtain ⟨c0, hc0, hc0p⟩ := hstate
  cases hf : df.cols.filter (fun a => (strList "State").isPrefixOf a) with
  | nil =>
    exfalso
    have hnone := List.filter_eq_nil_iff.mp hf c0 hc0
    simp [hc0p] at hnone
  | cons sthead t =>
    have hsmem : sthead ∈ df.cols.filter (fun a => (strList "State").isPrefixOf a) := by
      rw [hf]
      exact List.mem_cons_self _ _
    have hsc : sthead ∈ df.cols := (List.mem_filter.mp hsmem).1
    have hsp : (strList "State").isPrefixOf sthead = true := by
      simpa using (List.mem_filter.mp hsmem).2
    have hne : ∀ x : List Char, (strList "State").isPrefixOf x = false → x ≠ sthead := by
      intro x hx he
      rw [he, hsp] at hx
      cases hx
    rw [rfmt_df_eq_core df ai sthead t hf]
    unfold rfmt_df_core
    simp only []
    -- memberships after the first two renames
    have h2S : strList "State" ∈
        (renameCol (renameCol df sthead (strList "State")) (strList "Primary")
          (strList "Conference")).cols :=
      mem_renameCol_of_ne _ (mem_renameCol_new _ hsc) (by decide)
    have h2N : strList "Nickname" ∈
        (renameCol (renameCol df sthead (strList "State")) (strList "Primary")
          (strList "Conference")).cols :=
      mem_renameCol_of_ne _ (mem_renameCol_of_ne _ hnick (hne _ (by decide))) (by decide)
    have h2C : strList "City" ∈
        (renameCol (renameCol df sthead (strList "State")) (strList "Primary")
          (strList "Conference")).cols :=
      mem_renameCol_of_ne _ (mem_renameCol_of_ne _ hcity (hne _ (by decide))) (by decide)
    have h2F : strList "Conference" ∈
        (renameCol (renameCol df sthead (strList "State")) (strList "Primary")
          (strList "Conference")).cols :=
      mem_renameCol_new _ (mem_renameCol_of_ne _ hprim (hne _ (by decide)))
    by_cases hcm : strList "Common name" ∈
        (renameCol (renameCol df sthead (strList "State")) (strList "Primary")
          (strList "Conference")).cols
    · rw [if_pos hcm]
      obtain ⟨vals, hvals⟩ := assoc_mapM_ok
        (renameCol (renameCol (renameCol df sthead (strList "State")) (strList "Primary")
          (strList "Conference")) (strList "Common name") (strList "Institution")).rows.length
        ai hai
      rw [hvals, ok_bind]
      exact stage_after_d3_ok _ _
        (mem_renameCol_new _ hcm)
        (mem_renameCol_of_ne _ h2N (by decide))
        (mem_renameCol_of_ne _ h2C (by decide))
        (mem_renameCol_of_ne _ h2S (by decide))
        (mem_renameCol_of_ne _ h2F (by decide))
    · rw [if_neg hcm]
      have hschool : strList "School" ∈ df.cols := by
        rcases hinst with hcm0 | hs0
        · exact absurd
            (mem_renameCol_of_ne _ (mem_renameCol_of_ne _ hcm0 (hne _ (by decide)))
              (by decide)) hcm
        · exact hs0
      have h2Sc : strList "School" ∈
          (renameCol (renameCol df sthead (strList "State")) (strList "Primary")
            (strList "Conference")).cols :=
        mem_renameCol_of_ne _ (mem_renameCol_of_ne _ hschool (hne _ (by decide)))
          (by decide)
      obtain ⟨vals, hvals⟩ := assoc_mapM_ok
        (renameCol (renameCol (renameCol df sthead (strList "State")) (strList "Primary")
          (strList "Conference")) (strList "School") (strList "Institution")).rows.length
        ai hai
      rw [hvals, ok_bind]
      exact stage_after_d3_ok _ _
        (mem_renameCol_new _ h2Sc)
        (mem_renameCol_of_ne _ h2N (by decide))
        (mem_renameCol_of_ne _ h2C (by decide))
        (mem_renameCol_of_ne _ h2S (by decide))
        (mem_renameCol_of_ne _ h2F (by decide))

/-- Witness for C4 (amended): a concrete one-row table in the `School` /
`State/Province` naming variant normalizes with the six labels exactly. -/
theorem rfmt_df_normalizes_labels_witness :
    ∃ out,
      rfmt_df
        { cols := [strList "School", strList "Nickname", strList "City",
                   strList "State/Province", strList "Primary"],
          rows := [[strList "Acme U", strList "Tigers", strList "Columbus",
                    strList "OH", strList "Mid-Conf"]] } 0 = Except.ok out ∧
      ∀ c, (c ∈ out.cols ↔
        c ∈ [strList "Institution", strList "Nickname", strList "City",
             strList "State", strList "Conference", strList "Association"]) :=
  rfmt_df_normalizes_labels _ 0 (by decide)
    ⟨strList "State/Province", by decide, by decide⟩
    (by decide) (by decide) (by decide) (Or.inr (by decide))

/-- A table that already carries an `Institution` column but has neither
`Common name` nor `School` — the input refuting claim C5 as stated. -/
def c5df : DFrame :=
  { cols := [strList "Institution", strList "Nickname", strList "City",
             strList "State", strList "Primary"],
    rows := [[strList "Best College", strList "Eagles", strList "Austin",
              strList "TX", strList "South-Conf"]] }

/-- C5 (counterexample): on a table with neither `Common name` nor `School`
(but an `Institution` column already present) the normalizer does NOT abort —
it returns a normalized table, because pandas `rename` silently ignores
missing labels and the later column lookups all succeed. -/
theorem rfmt_df_no_schema_err_cex :
    strList "Common name" ∉ c5df.cols ∧ strList "School" ∉ c5df.cols ∧
    ∃ out, rfmt_df c5df 0 = Except.ok out := by
  refine ⟨by decide, by decide, ?_⟩
  exact ⟨_, rfl⟩

/-- C5 (amended): the normalizer aborts with an error whenever no column name
starts with `State`, or none of `Common name`, `School`, `Institution` is
present (in the latter case the `Institution` lookup in `cleanup`, or the
`Nickname` lookup, fails with a KeyError). -/
theorem rfmt_df_aborts :
    ∀ (df : DFrame) (assoc_indx : Nat),
      ((∀ c ∈ df.cols, (strList "State").isPrefixOf c = false) ∨
       (strList "Common name" ∉ df.cols ∧ strList "School" ∉ df.cols ∧
        strList "Institution" ∉ df.cols)) →
      ∃ err, rfmt_df df assoc_indx = Except.error err := by
  intro df ai h
  cases hf : df.cols.filter (fun a => (strList "State").isPrefixOf a) with
  | nil => exact ⟨_, rfmt_df_err_of_no_state df ai hf⟩
  | cons sthead t =>
    have hsmem : sthead ∈ df.cols.filter (fun a => (strList "State").isPrefixOf a) := by
      rw [hf]
      exact List.mem_cons_self _ _
    rcases h with h | ⟨hcm, hsc, hin⟩
    · exfalso
      have h1 := (List.mem_filter.mp hsmem).1
      have h2 := (List.mem_filter.mp hsmem).2
      simp [h sthead h1] at h2
    · rw [rfmt_df_eq_core df ai sthead t hf]
      unfold rfmt_df_core
      simp only []
      have h2I : strList "Institution" ∉
          (renameCol (renameCol df sthead (strList "State")) (strList "Primary")
            (strList "Conference")).cols :=
        not_mem_renameCol _ (not_mem_renameCol _ hin (by decide)) (by decide)
      have h2cm : strList "Common name" ∉
          (renameCol (renameCol df sthead (strList "State")) (strList "Primary")
            (strList "Conference")).cols :=
        not_mem_renameCol _ (not_mem_renameCol _ hcm (by decide)) (by decide)
      rw [if_neg h2cm]
      have h2sc : strList "School" ∉
          (renameCol (renameCol df sthead (strList "State")) (strList "Primary")
            (strList "Conference")).cols :=
        not_mem_renameCol _ (not_mem_renameCol _ hsc (by decide)) (by decide)
      have h3 := renameCol_cols_of_not_mem (strList "Institution") h2sc
      apply bind_err_of_all
      intro vals
      exact stage_after_d3_err _ vals (fun hmem => h2I (h3 ▸ hmem))

/-- Witness for C5 (amended): a table with no `State`-prefixed column makes
the normalizer fail. -/
theorem rfmt_df_aborts_witness :
    ∃ err, rfmt_df { cols := [strList "Nickname", strList "City"], rows := [] } 0 =
      Except.error err :=
  rfmt_df_aborts _ 0 (Or.inl (by decide))

/-- Embedding of `dframe.drop(columns=[name])`: remove every column with that
label, keeping rows aligned. -/
def dropCol (df : DFrame) (name : List Char) : DFrame :=
  { cols := df.cols.filter (fun c => !(c == name)),
    rows := df.rows.map (fun r =>
      ((df.cols.zip r).filter (fun p => !(p.1 == name))).map Prod.snd) }

/-- Embedding of `fix_mw_teams` (src/main_module.py, lines 87-96): derive the
`Generic Nickname` and `Women's Nickname` columns from `Nickname` via
`gw_info`, then drop `Nickname`. -/
def fix_mw_teams (dframe : DFrame) : Except (List Char) DFrame := do
  let nick1 ← getCol dframe (strList "Nickname")
  let d1 := setCol dframe (strList "Generic Nickname")
    (nick1.map (fun a => (gw_info a).getD 0 []))
  let nick2 ← getCol d1 (strList "Nickname")
  let d2 := setCol d1 (strList "Women\x27s Nickname")
    (nick2.map (fun a => (gw_info a).getD 1 []))
  pure (dropCol d2 (strList "Nickname"))

/-- Embedding of `pd.concat(assoc_list)` for frames sharing one schema (which
is how it is called: every frame is an `rfmt_df` output with the same six
columns): rows are concatenated in order. -/
def concatDF (frames : List DFrame) : DFrame :=
  { cols := (frames.headD { cols := [], rows := [] }).cols,
    rows := frames.flatMap (fun f => f.rows) }

/-- Embedding of `get_websites` (src/main_module.py, lines 34-39). -/
def get_websites : List (List Char) :=
  ASSOC.map (fun a => strList "https://en.wikipedia.org/wiki/List_of_" ++ a.1)

/-- Python dict lookup in `ASSOC` (KeyError modelled by `none`). -/
def assocLookup : List (List Char × Nat) → List Char → Option Nat
  | [], _ => none
  | (k, v) :: rest, key => if k = key then some v else assocLookup rest key

/-- Embedding of `get_schools` (src/main_module.py, lines 98-107),
parameterized by the fetch-and-parse collaborator: `fetch url` stands for
`pd.read_html(requests.get(url, timeout=20).text)`, the list of tables parsed
from the page.  The loop recovers the association key from the URL, selects
the registered table index, normalizes each table, concatenates, splits the
nicknames and reindexes positionally (`reset_index(drop=True)` is a no-op in
this positional model). -/
def get_schools (fetch : List Char → List DFrame) : Except (List Char) DFrame := do
  let assoc_list ← get_websites.enum.mapM (fun url => do
    let key := (splitOnSub (strList "List_of_") url.2).getLastD []
    match assocLookup ASSOC key with
    | none => Except.error (strList "KeyError")
    | some indx =>
      match (fetch url.2).get? indx with
      | none => Except.error (strList "IndexError")
      | some tbl => rfmt_df tbl url.1)
  fix_mw_teams (concatDF assoc_list)

/-- Embedding of `output_school` (src/main_module.py, lines 109-113): the
spreadsheet rows written by `to_excel`, each prefixed with its positional
index (the dataframe's default integer index). -/
def output_school (fetch : List Char → List DFrame) :
    Except (List Char) (List (Nat × List (List Char))) :=
  (get_schools fetch).map (fun df => df.rows.enum)

/-- C8: the entry point runs two full fetch cycles (one for `concordance`, one
for `output_school`); when the two cycles observe identical fetch results the
two computed datasets are equal, and the spreadsheet export carries exactly
the positional indices 0..n-1 over the very row list that the concordance
cycle enumerates — so every exported record's index is consistent with the
index used in the concordance. -/
theorem two_cycle_consistency :
    ∀ fetch1 fetch2 : List Char → List DFrame,
      (∀ u, fetch1 u = fetch2 u) →
      get_schools fetch1 = get_schools fetch2 ∧
      ∀ df, get_schools fetch1 = Except.ok df →
        output_school fetch2 = Except.ok df.rows.enum ∧
        df.rows.enum.map Prod.fst = List.range df.rows.length ∧
        df.rows.enum.map Prod.snd = df.rows := by
  intro f1 f2 h
  have hfe : f1 = f2 := funext h
  subst hfe
  refine ⟨rfl, ?_⟩
  intro df hdf
  refine ⟨?_, List.enum_map_fst _, List.enum_map_snd _⟩
  rw [output_school, hdf]
  rfl

/-- Witness for C8: both cycles observing an empty web (no tables on any
page) produce the same outcome, and the export/index consistency holds. -/
theorem two_cycle_consistency_witness :
    get_schools (fun _ => []) = get_schools (fun _ => []) ∧
    ∀ df, get_schools (fun _ => []) = Except.ok df →
      output_school (fun _ => []) = Except.ok df.rows.enum ∧
      df.rows.enum.map Prod.fst = List.range df.rows.length ∧
      df.rows.enum.map Prod.snd = df.rows :=
  two_cycle_consistency (fun _ => []) (fun _ => []) (fun _ => rfl)

end Nicknames
